import Mathlib

/-
Verification of the Percolator transaction engine (`src/server.rs`, `src/client.rs`,
`src/msg.rs`) against its specification.

The server's column store (`KvTable`) keeps three `BTreeMap<(Vec<u8>, u64), Value>`
maps.  We embed each map as an association list with unique composite keys; all
observations go through `List.find?` / filtering, so list order is irrelevant to the
semantics except where the source genuinely iterates in ascending key order
(`KvTable::find_write`), where we sort explicitly.  Timestamps are `u64` in the
source; we embed them as `Nat` and make the `u64` wrap-around arithmetic of
`KvTable::read`'s bound conversion explicit with `% 2^64` (release-mode wrapping
semantics).  Code paths that panic in Rust (`Value::as_bytes` / `as_ts` on the wrong
variant, `Option::unwrap` on `None`, `BTreeMap::range` with start > end) are embedded
as `none` in an outer `Option` layer.
-/

namespace Percolator

/-- Raw keys and raw values are byte strings (`Vec<u8>`), embedded as lists of naturals. -/
abbrev RawKey := List Nat

/-- `u64::MAX`. -/
def U64MAX : Nat := 2 ^ 64 - 1

/-- Cell values (`enum Value` in `server.rs`): a timestamp pointer or a byte vector. -/
inductive Value where
  | Timestamp (ts : Nat)
  | Vector (bytes : List Nat)
deriving DecidableEq, Repr

/-- `Value::as_bytes`; the source panics on a `Timestamp`, embedded as `none`. -/
def Value.as_bytes : Value → Option (List Nat)
  | .Vector bytes => some bytes
  | .Timestamp _ => none

/-- `Value::as_ts`; the source panics on a `Vector`, embedded as `none`. -/
def Value.as_ts : Value → Option Nat
  | .Timestamp ts => some ts
  | .Vector _ => none

/-- One column of the store: a finite map from composite key `(K, T)` to a cell
value, embedded as an association list. -/
abbrev Col := List ((RawKey × Nat) × Value)

/-- `BTreeMap::insert`: replace any binding of the composite key `k`, add `(k, v)`. -/
def colInsert (k : RawKey × Nat) (v : Value) (m : Col) : Col :=
  (k, v) :: m.filter (fun e => decide (e.1 ≠ k))

/-- `BTreeMap::remove`: drop the binding of the composite key `k` (no-op if absent). -/
def colErase (k : RawKey × Nat) (m : Col) : Col :=
  m.filter (fun e => decide (e.1 ≠ k))

/-- Map lookup at a composite key. -/
def colLookup (m : Col) (k : RawKey × Nat) : Option Value :=
  (m.find? (fun e => decide (e.1 = k))).map (·.2)

/-- `true` iff the composite key `k` is bound in the column. -/
def colHas (m : Col) (k : RawKey × Nat) : Bool :=
  m.any (fun e => decide (e.1 = k))

/-- The column's composite keys are pairwise distinct (always true of a `BTreeMap`). -/
def colNodup (m : Col) : Prop :=
  m.Pairwise (fun a b => a.1 ≠ b.1)

instance (m : Col) : Decidable (colNodup m) :=
  inferInstanceAs (Decidable
    (List.Pairwise (fun (a b : (RawKey × Nat) × Value) => a.1 ≠ b.1) m))

/-- `enum Column` in `server.rs`. -/
inductive Column where
  | Write
  | Data
  | Lock

/-- `struct KvTable`: the three columns. -/
structure KvTable where
  write : Col
  data : Col
  lock : Col
deriving DecidableEq, Repr

/-- `KvTable::default()`: all three columns empty. -/
def KvTable.empty : KvTable := ⟨[], [], []⟩

/-- Column selection (the `match column` at the head of each `KvTable` method). -/
@[reducible] def KvTable.colOf (st : KvTable) : Column → Col
  | .Write => st.write
  | .Data => st.data
  | .Lock => st.lock

/-- A timestamp range bound (`std::ops::Bound<u64>`). -/
inductive TsBound where
  | incl (ts : Nat)
  | excl (ts : Nat)
  | unb

/-- The numeric lower endpoint `KvTable::read` derives from the start bound:
`Included ts → ts`, `Excluded ts → ts + 1` (u64 wrapping), `Unbounded → 0`. -/
def TsBound.lo : TsBound → Nat
  | .incl ts => ts
  | .excl ts => (ts + 1) % 2 ^ 64
  | .unb => 0

/-- The numeric upper endpoint `KvTable::read` derives from the end bound:
`Included ts → ts`, `Excluded ts → ts - 1` (u64 wrapping), `Unbounded → u64::MAX`. -/
def TsBound.hi : TsBound → Nat
  | .incl ts => ts
  | .excl ts => (ts + U64MAX) % 2 ^ 64
  | .unb => U64MAX

/-- The entry with the greatest timestamp in a list of column entries
(`range(..).next_back()` on a `BTreeMap` slice whose raw keys all equal `K`). -/
def maxEntry : Col → Option (Nat × Value)
  | [] => none
  | e :: es =>
    match maxEntry es with
    | none => some (e.1.2, e.2)
    | some (ts, v) => if ts < e.1.2 then some (e.1.2, e.2) else some (ts, v)

/-- `KvTable::read`: the latest entry for `key` in the given column whose timestamp
lies in the derived numeric range `[lo, hi]`.  `BTreeMap::range` panics when the
range start exceeds its end, embedded as the outer `none`. -/
def KvTable.read (st : KvTable) (key : RawKey) (column : Column) (lb ub : TsBound) :
    Option (Option (Nat × Value)) :=
  if ub.hi < lb.lo then none
  else
    some (maxEntry ((st.colOf column).filter
      (fun e => decide (e.1.1 = key ∧ lb.lo ≤ e.1.2 ∧ e.1.2 ≤ ub.hi))))

/-- `KvTable::write`: insert or overwrite the cell at `(key, ts)` in the column. -/
def KvTable.writeCell (st : KvTable) (key : RawKey) (column : Column) (ts : Nat)
    (v : Value) : KvTable :=
  match column with
  | .Write => { st with write := colInsert (key, ts) v st.write }
  | .Data => { st with data := colInsert (key, ts) v st.data }
  | .Lock => { st with lock := colInsert (key, ts) v st.lock }

/-- `KvTable::erase`: remove the cell at `(key, ts)` from the column if present. -/
def KvTable.eraseCell (st : KvTable) (key : RawKey) (column : Column) (ts : Nat) :
    KvTable :=
  match column with
  | .Write => { st with write := colErase (key, ts) st.write }
  | .Data => { st with data := colErase (key, ts) st.data }
  | .Lock => { st with lock := colErase (key, ts) st.lock }

/-- Insert an entry into a timestamp-sorted list of `(ts, value)` pairs. -/
def insertByTs (e : Nat × Value) : List (Nat × Value) → List (Nat × Value)
  | [] => [e]
  | f :: fs => if e.1 ≤ f.1 then e :: f :: fs else f :: insertByTs e fs

/-- Sort `(ts, value)` pairs by ascending timestamp (the iteration order of
`BTreeMap::range` over the entries of one raw key). -/
def sortByTs (l : List (Nat × Value)) : List (Nat × Value) :=
  l.foldr insertByTs []

/-- The ascending scan inside `KvTable::find_write`: `as_ts` panics on a `Vector`
payload (outer `none`); the first entry whose payload equals `start_ts` is returned. -/
def scanWrite (start_ts : Nat) : List (Nat × Value) → Option (Option Nat)
  | [] => some none
  | (ts, v) :: es =>
    match v with
    | .Vector _ => none
    | .Timestamp t => if t = start_ts then some (some ts) else scanWrite start_ts es

/-- `KvTable::find_write`: scan the Write rows of `key` (timestamps in
`[0, u64::MAX]`, ascending) for the entry whose `Timestamp` payload is `start_ts`;
return its commit timestamp. -/
def KvTable.find_write (st : KvTable) (key : RawKey) (start_ts : Nat) :
    Option (Option Nat) :=
  scanWrite start_ts
    (sortByTs ((st.write.filter
      (fun e => decide (e.1.1 = key ∧ e.1.2 ≤ U64MAX))).map (fun e => (e.1.2, e.2))))

/-- `enum GetError` (`msg.rs`). -/
inductive GetError where
  | IsLocked (ts : Nat) (primary : List Nat)
deriving DecidableEq, Repr

/-- `enum PrewriteError` (`msg.rs`). -/
inductive PrewriteError where
  | WriteConflict (ts : Nat)
  | IsLocked (ts : Nat)
deriving DecidableEq, Repr

/-- `enum CommitError` (`msg.rs`): no variants. -/
inductive CommitError : Type

/-- `enum RollbackError` (`msg.rs`): no variants. -/
inductive RollbackError : Type

/-- `MemoryStorage::get`.  The outer `none` embeds a server panic (`as_bytes` /
`as_ts` on a wrong variant, or `unwrap` on a missing Data row). -/
def MemoryStorage.get (st : KvTable) (start_ts : Nat) (key : RawKey) :
    Option (Except GetError (Option (List Nat))) :=
  match st.read key .Lock .unb (.incl start_ts) with
  | none => none
  | some (some (ts, v)) =>
    match v.as_bytes with
    | none => none
    | some primary => some (.error (.IsLocked ts primary))
  | some none =>
    match st.read key .Write .unb (.incl start_ts) with
    | none => none
    | some none => some (.ok none)
    | some (some (_, v)) =>
      match v.as_ts with
      | none => none
      | some ts =>
        match st.read key .Data (.incl ts) (.incl ts) with
        | none => none
        | some none => none
        | some (some (_, dv)) =>
          match dv.as_bytes with
          | none => none
          | some bytes => some (.ok (some bytes))

/-- `MemoryStorage::prewrite`.  Returns the response together with the resulting
table; the outer `none` embeds a server panic. -/
def MemoryStorage.prewrite (st : KvTable) (start_ts : Nat) (key : RawKey)
    (value primary_key : List Nat) : Option (Except PrewriteError Unit × KvTable) :=
  match st.read key .Write (.incl start_ts) .unb with
  | none => none
  | some (some (ts, _)) => some (.error (.WriteConflict ts), st)
  | some none =>
    match st.read key .Lock .unb .unb with
    | none => none
    | some (some (ts, _)) => some (.error (.IsLocked ts), st)
    | some none =>
      let st1 := st.writeCell key .Data start_ts (.Vector value)
      let st2 := st1.writeCell key .Lock start_ts (.Vector primary_key)
      some (.ok (), st2)

/-- `MemoryStorage::commit`: write the Write row, erase the Lock row; always `Ok`.
The `is_primary` request field is ignored by the server. -/
def MemoryStorage.commit (st : KvTable) (_is_primary : Bool) (key : RawKey)
    (start_ts commit_ts : Nat) : Except CommitError Unit × KvTable :=
  let st1 := st.writeCell key .Write commit_ts (.Timestamp start_ts)
  let st2 := st1.eraseCell key .Lock start_ts
  (.ok (), st2)

/-- `MemoryStorage::check`: delegate to `KvTable::find_write`. -/
def MemoryStorage.check (st : KvTable) (key : RawKey) (lock_ts : Nat) :
    Option (Option Nat) :=
  st.find_write key lock_ts

/-- `MemoryStorage::rollback`: erase the Lock row; always `Ok`. -/
def MemoryStorage.rollback (st : KvTable) (key : RawKey) (start_ts : Nat) :
    Except RollbackError Unit × KvTable :=
  (.ok (), st.eraseCell key .Lock start_ts)

/-- A server request: one message of the transaction-server interface (`msg.rs`). -/
inductive Req where
  | get (start_ts : Nat) (key : RawKey)
  | prewrite (start_ts : Nat) (key : RawKey) (value : List Nat) (primary_key : RawKey)
  | commit (is_primary : Bool) (key : RawKey) (start_ts : Nat) (commit_ts : Nat)
  | check (key : RawKey) (lock_ts : Nat)
  | rollback (key : RawKey) (start_ts : Nat)

/-- The effect of one request on the server's column maps.  `get` and `check` do
not mutate; a `prewrite` that panics has performed no writes (its reads precede
its writes), so the maps are unchanged. -/
def stepReq (st : KvTable) : Req → KvTable
  | .get _ _ => st
  | .prewrite sts k v p =>
    match MemoryStorage.prewrite st sts k v p with
    | some (_, st') => st'
    | none => st
  | .commit ip k sts cts => (MemoryStorage.commit st ip k sts cts).2
  | .check _ _ => st
  | .rollback k sts => (MemoryStorage.rollback st k sts).2

/-- Run a sequence of requests against the store. -/
def execReqs : KvTable → List Req → KvTable
  | st, [] => st
  | st, r :: rs => execReqs (stepReq st r) rs

/-- A Commit request is prepared when a Data row exists at `(key, start_ts)` —
exactly what a prior successful Prewrite of the same key and transaction
guarantees (the client's commit phase runs only after all Prewrites succeed, and
Data rows are never erased). -/
def commitGuard (st : KvTable) : Req → Bool
  | .commit _ k sts _ => colHas st.data (k, sts)
  | _ => true

/-- Run a sequence of requests in which every Commit is prepared (has a Data row
at its `(key, start_ts)` when applied); `none` if some Commit is not. -/
def execGuarded : KvTable → List Req → Option KvTable
  | st, [] => some st
  | st, r :: rs =>
    if commitGuard st r then execGuarded (stepReq st r) rs else none

/-- A transport-level RPC failure (`std::io::Error` after `call_with_retry`
exhausts its attempts), identified by an opaque code. -/
abbrev TErr := Nat

/-- The result a client observes for one RPC: the response, or the transport
error surfaced after retries are exhausted. -/
abbrev RpcResult (α : Type) := Except TErr α

/-- The result of `Client::commit()`: a panic (`expect` failure), a surfaced
transport error (`Err(e)`), or `Ok(b)`. -/
inductive CommitOutcome where
  | panicked
  | err (e : TErr)
  | ok (b : Bool)
deriving DecidableEq, Repr

/-- The commit-phase loop of `Client::commit()` (`client.rs` lines 152-166),
iterating the buffered keys in order with the per-key RPC results given by
`resp`.  `committed` records whether any Commit RPC has succeeded yet:
`Ok(Ok(()))` sets it; a transport error before any success is returned as the
commit's error; any later failure — transport error after a success, or an error
response — yields `Ok(true)`. -/
def commitKeys (committed : Bool) (resp : RawKey → RpcResult (Except CommitError Unit)) :
    List RawKey → CommitOutcome
  | [] => .ok true
  | k :: ks =>
    match resp k with
    | .ok (.ok ()) => commitKeys true resp ks
    | .error e => if committed then .ok true else .err e
    | .ok (.error _) => .ok true

/-- The prewrite-phase loop of `Client::commit()`: a transport error propagates
(`?`), an error response aborts with `Ok(false)`, success moves to the next key.
`.ok true` means every Prewrite succeeded and the commit phase is entered. -/
def prewriteKeys (resp : RawKey → RpcResult (Except PrewriteError Unit)) :
    List (RawKey × List Nat) → RpcResult Bool
  | [] => .ok true
  | (k, _) :: rest =>
    match resp k with
    | .error e => .error e
    | .ok (.error _) => .ok false
    | .ok (.ok ()) => prewriteKeys resp rest

/-- `Client::commit()` (`client.rs` lines 123-169).  The client state is its
optional `start_ts` and its key-sorted write buffer (a `BTreeMap`, so the first
entry's key is the primary); the outcomes of the TSO call and of each Prewrite /
Commit RPC are supplied as oracles.  An empty buffer returns `Ok(true)` before
`start_ts` is consulted; otherwise `start_ts.expect("no transaction")` panics
when no transaction has begun. -/
def clientCommit (start_ts : Option Nat) (write_set : List (RawKey × List Nat))
    (tsoResp : RpcResult Nat)
    (prewriteResp : RawKey → RpcResult (Except PrewriteError Unit))
    (commitResp : RawKey → RpcResult (Except CommitError Unit)) : CommitOutcome :=
  if write_set.isEmpty then .ok true
  else
    match start_ts with
    | none => .panicked
    | some _ =>
      match tsoResp with
      | .error e => .err e
      | .ok _commit_ts =>
        match prewriteKeys prewriteResp write_set with
        | .error e => .err e
        | .ok false => .ok false
        | .ok true => commitKeys false commitResp (write_set.map Prod.fst)

/-! ### Column-map lemmas -/

theorem mem_colInsert {k : RawKey × Nat} {v : Value} {m : Col} {e} :
    e ∈ colInsert k v m ↔ e = (k, v) ∨ (e ∈ m ∧ e.1 ≠ k) := by
  simp [colInsert, List.mem_filter]

theorem mem_colErase {k : RawKey × Nat} {m : Col} {e} :
    e ∈ colErase k m ↔ e ∈ m ∧ e.1 ≠ k := by
  simp [colErase, List.mem_filter]

theorem colHas_iff {m : Col} {k : RawKey × Nat} :
    colHas m k = true ↔ ∃ v, (k, v) ∈ m := by
  simp only [colHas, List.any_eq_true, decide_eq_true_eq]
  constructor
  · rintro ⟨e, he, h1⟩
    exact ⟨e.2, by rwa [← h1, Prod.mk.eta]⟩
  · rintro ⟨v, hv⟩
    exact ⟨(k, v), hv, rfl⟩

theorem colHas_colInsert {k j : RawKey × Nat} {v : Value} {m : Col} :
    colHas (colInsert k v m) j = true ↔ j = k ∨ (colHas m j = true ∧ j ≠ k) := by
  simp only [colHas_iff]
  constructor
  · rintro ⟨w, hw⟩
    rcases mem_colInsert.mp hw with h | ⟨hm, hne⟩
    · exact .inl (congrArg Prod.fst h)
    · exact .inr ⟨⟨w, hm⟩, hne⟩
  · rintro (rfl | ⟨⟨w, hw⟩, hne⟩)
    · exact ⟨v, mem_colInsert.mpr (.inl rfl)⟩
    · exact ⟨w, mem_colInsert.mpr (.inr ⟨hw, hne⟩)⟩

theorem colHas_colErase {k j : RawKey × Nat} {m : Col} :
    colHas (colErase k m) j = true ↔ colHas m j = true ∧ j ≠ k := by
  simp only [colHas_iff]
  constructor
  · rintro ⟨w, hw⟩
    rcases mem_colErase.mp hw with ⟨hm, hne⟩
    exact ⟨⟨w, hm⟩, hne⟩
  · rintro ⟨⟨w, hw⟩, hne⟩
    exact ⟨w, mem_colErase.mpr ⟨hw, hne⟩⟩

theorem colNodup_val_eq {m : Col} (hnd : colNodup m) {k : RawKey × Nat} {v₁ v₂ : Value}
    (h₁ : (k, v₁) ∈ m) (h₂ : (k, v₂) ∈ m) : v₁ = v₂ := by
  induction m with
  | nil => cases h₁
  | cons e es ih =>
    rcases List.pairwise_cons.mp hnd with ⟨hhead, htail⟩
    rcases List.mem_cons.mp h₁ with h₁ | h₁ <;> rcases List.mem_cons.mp h₂ with h₂ | h₂
    · exact congrArg Prod.snd (h₁.trans h₂.symm)
    · exact absurd (congrArg Prod.fst h₁).symm (hhead (k, v₂) h₂)
    · exact absurd (congrArg Prod.fst h₂).symm (hhead (k, v₁) h₁)
    · exact ih htail h₁ h₂

/-! ### `maxEntry` lemmas -/

theorem maxEntry_eq_none {l : Col} : maxEntry l = none ↔ l = [] := by
  cases l with
  | nil => simp [maxEntry]
  | cons e es =>
    simp only [maxEntry]
    cases h : maxEntry es with
    | none => simp
    | some p =>
      rcases p with ⟨ts, v⟩
      by_cases hlt : ts < e.1.2 <;> simp [hlt]

theorem maxEntry_mem {l : Col} {t : Nat} {v : Value} (h : maxEntry l = some (t, v)) :
    ∃ k, ((k, t), v) ∈ l := by
  induction l generalizing t v with
  | nil => cases h
  | cons e es ih =>
    cases hes : maxEntry es with
    | none =>
      simp only [maxEntry, hes] at h
      have h' : (e.1.2, e.2) = (t, v) := Option.some.inj h
      have h1 : e.1.2 = t := congrArg Prod.fst h'
      have h2 : e.2 = v := congrArg Prod.snd h'
      exact ⟨e.1.1, by rw [← h1, ← h2]; exact List.mem_cons_self _ _⟩
    | some p =>
      rcases p with ⟨ts, w⟩
      simp only [maxEntry, hes] at h
      by_cases hlt : ts < e.1.2
      · rw [if_pos hlt] at h
        have h' : (e.1.2, e.2) = (t, v) := Option.some.inj h
        have h1 : e.1.2 = t := congrArg Prod.fst h'
        have h2 : e.2 = v := congrArg Prod.snd h'
        exact ⟨e.1.1, by rw [← h1, ← h2]; exact List.mem_cons_self _ _⟩
      · rw [if_neg hlt] at h
        have h' : (ts, w) = (t, v) := Option.some.inj h
        rcases ih (hes.trans (congrArg some h')) with ⟨k, hk⟩
        exact ⟨k, List.mem_cons_of_mem _ hk⟩

theorem maxEntry_isMax {l : Col} {t : Nat} {v : Value} (h : maxEntry l = some (t, v)) :
    ∀ e ∈ l, e.1.2 ≤ t := by
  induction l generalizing t v with
  | nil => intro e he; cases he
  | cons e es ih =>
    intro f hf
    cases hes : maxEntry es with
    | none =>
      simp only [maxEntry, hes] at h
      have hts : e.1.2 = t := congrArg Prod.fst (Option.some.inj h)
      rcases List.mem_cons.mp hf with rfl | hf'
      · exact hts.le
      · rw [maxEntry_eq_none.mp hes] at hf'; cases hf'
    | some p =>
      rcases p with ⟨ts, w⟩
      simp only [maxEntry, hes] at h
      by_cases hlt : ts < e.1.2
      · rw [if_pos hlt] at h
        have hts : e.1.2 = t := congrArg Prod.fst (Option.some.inj h)
        rcases List.mem_cons.mp hf with rfl | hf'
        · exact hts.le
        · exact hts ▸ le_of_lt (lt_of_le_of_lt (ih hes f hf') hlt)
      · rw [if_neg hlt] at h
        have h' : (ts, w) = (t, v) := Option.some.inj h
        have hts : ts = t := congrArg Prod.fst h'
        rcases List.mem_cons.mp hf with rfl | hf'
        · exact hts ▸ le_of_not_lt hlt
        · exact ih (hes.trans (congrArg some h')) f hf'

theorem maxEntry_eq_of_max {l : Col} {key : RawKey} {t : Nat} {v : Value}
    (hkey : ∀ e ∈ l, e.1.1 = key) (hnd : l.Pairwise (fun a b => a.1 ≠ b.1))
    (hmem : ((key, t), v) ∈ l) (hmax : ∀ e ∈ l, e.1.2 ≤ t) :
    maxEntry l = some (t, v) := by
  cases h : maxEntry l with
  | none => rw [maxEntry_eq_none.mp h] at hmem; cases hmem
  | some p =>
    rcases p with ⟨t', v'⟩
    rcases maxEntry_mem h with ⟨k', hk'⟩
    have ht'le : t' ≤ t := hmax _ hk'
    have htle : t ≤ t' := maxEntry_isMax h _ hmem
    have ht : t' = t := le_antisymm ht'le htle
    subst ht
    have hk : k' = key := hkey _ hk'
    subst hk
    have : v' = v := colNodup_val_eq hnd hk' hmem
    rw [this]

/-! ### `KvTable.read` characterization -/

theorem mem_readFilter {m : Col} {key : RawKey} {lo hi : Nat} {e} :
    e ∈ m.filter (fun e => decide (e.1.1 = key ∧ lo ≤ e.1.2 ∧ e.1.2 ≤ hi)) ↔
      e ∈ m ∧ e.1.1 = key ∧ lo ≤ e.1.2 ∧ e.1.2 ≤ hi := by
  simp [List.mem_filter]

theorem read_some_none_iff {st : KvTable} {key : RawKey} {c : Column} {lb ub : TsBound}
    (h : ¬ ub.hi < lb.lo) :
    st.read key c lb ub = some none ↔
      ∀ e ∈ st.colOf c, ¬ (e.1.1 = key ∧ lb.lo ≤ e.1.2 ∧ e.1.2 ≤ ub.hi) := by
  rw [KvTable.read, if_neg h, Option.some.injEq, maxEntry_eq_none, List.filter_eq_nil_iff]
  simp

theorem read_some_some_of {st : KvTable} {key : RawKey} {c : Column} {lb ub : TsBound}
    {ts : Nat} {v : Value} (h : ¬ ub.hi < lb.lo) (hnd : colNodup (st.colOf c))
    (hmem : ((key, ts), v) ∈ st.colOf c) (hlo : lb.lo ≤ ts) (hhi : ts ≤ ub.hi)
    (hmax : ∀ e ∈ st.colOf c, e.1.1 = key → lb.lo ≤ e.1.2 → e.1.2 ≤ ub.hi → e.1.2 ≤ ts) :
    st.read key c lb ub = some (some (ts, v)) := by
  rw [KvTable.read, if_neg h, Option.some.injEq]
  apply maxEntry_eq_of_max
  · intro e he
    exact (mem_readFilter.mp he).2.1
  · exact List.Pairwise.sublist (List.filter_sublist _) hnd
  · exact mem_readFilter.mpr ⟨hmem, rfl, hlo, hhi⟩
  · intro e he
    rcases mem_readFilter.mp he with ⟨he, hk, hl, hh⟩
    exact hmax e he hk hl hh

theorem read_some_some_inv {st : KvTable} {key : RawKey} {c : Column} {lb ub : TsBound}
    {ts : Nat} {v : Value} (h : st.read key c lb ub = some (some (ts, v))) :
    ((key, ts), v) ∈ st.colOf c ∧ lb.lo ≤ ts ∧ ts ≤ ub.hi ∧
      ∀ e ∈ st.colOf c, e.1.1 = key → lb.lo ≤ e.1.2 → e.1.2 ≤ ub.hi → e.1.2 ≤ ts := by
  rw [KvTable.read] at h
  by_cases hr : ub.hi < lb.lo
  · rw [if_pos hr] at h; cases h
  · rw [if_neg hr, Option.some.injEq] at h
    rcases maxEntry_mem h with ⟨k, hk⟩
    rcases mem_readFilter.mp hk with ⟨hmem, hkey, hlo, hhi⟩
    have hk' : k = key := hkey
    subst hk'
    refine ⟨hmem, hlo, hhi, ?_⟩
    intro e he hek hel heh
    exact maxEntry_isMax h e (mem_readFilter.mpr ⟨he, hek, hel, heh⟩)

theorem read_ne_none {st : KvTable} {key : RawKey} {c : Column} {lb ub : TsBound}
    (h : ¬ ub.hi < lb.lo) : st.read key c lb ub ≠ none := by
  rw [KvTable.read, if_neg h]
  exact Option.some_ne_none _

/-- Every timestamp stored in the three columns fits in a `u64` — true of every
state of the Rust program, whose composite keys are `(Vec<u8>, u64)`. -/
def tsBounded (st : KvTable) : Prop :=
  (∀ e ∈ st.write, e.1.2 ≤ U64MAX) ∧ (∀ e ∈ st.data, e.1.2 ≤ U64MAX) ∧
    (∀ e ∈ st.lock, e.1.2 ≤ U64MAX)

instance (st : KvTable) : Decidable (tsBounded st) :=
  inferInstanceAs (Decidable ((∀ e ∈ st.write, e.1.2 ≤ U64MAX) ∧
    (∀ e ∈ st.data, e.1.2 ≤ U64MAX) ∧ (∀ e ∈ st.lock, e.1.2 ≤ U64MAX)))

theorem read_max_ts {st : KvTable} {key : RawKey} {c : Column} {lb ub : TsBound}
    {ts : Nat} {v : Value} (h : ¬ ub.hi < lb.lo)
    (hmem : ((key, ts), v) ∈ st.colOf c) (hlo : lb.lo ≤ ts) (hhi : ts ≤ ub.hi)
    (hmax : ∀ e ∈ st.colOf c, e.1.1 = key → lb.lo ≤ e.1.2 → e.1.2 ≤ ub.hi → e.1.2 ≤ ts) :
    ∃ v', st.read key c lb ub = some (some (ts, v')) := by
  rw [KvTable.read, if_neg h]
  cases hm : maxEntry ((st.colOf c).filter
      (fun e => decide (e.1.1 = key ∧ lb.lo ≤ e.1.2 ∧ e.1.2 ≤ ub.hi))) with
  | none =>
    rw [maxEntry_eq_none] at hm
    have : ((key, ts), v) ∈ ([] : Col) := hm ▸ mem_readFilter.mpr ⟨hmem, rfl, hlo, hhi⟩
    cases this
  | some p =>
    rcases p with ⟨t', v'⟩
    rcases maxEntry_mem hm with ⟨k', hk'⟩
    rcases mem_readFilter.mp hk' with ⟨hmem', hkey', hlo', hhi'⟩
    have h1 : t' ≤ ts := hmax _ hmem' hkey' hlo' hhi'
    have h2 : ts ≤ t' := maxEntry_isMax hm _ (mem_readFilter.mpr ⟨hmem, rfl, hlo, hhi⟩)
    exact ⟨v', by rw [le_antisymm h1 h2]⟩

/-! ### Claim C1: the Get handler -/

/-- C1.  For every server store state and Get request `(start_ts, K)`:
(1) if a Lock entry for `K` with timestamp `ts ≤ start_ts` exists (unique below
`start_ts`, per server invariant 3) storing primary bytes `p`, Get fails
`IsLocked{ts, p}`; (2) if no Lock entry for `K` has timestamp `≤ start_ts` and no
Write entry for `K` has commit timestamp `≤ start_ts`, Get returns `None`;
(3) otherwise, with `c` the greatest Write commit timestamp `≤ start_ts` for `K`,
`s` its `VTs` payload, and `d` the Data payload at `(K, s)` (present per server
invariant 2), Get returns `Some d`. -/
theorem get_matches_spec :
    (∀ (st : KvTable) (sts : Nat) (K : RawKey) (ts : Nat) (p : List Nat),
      colNodup st.lock → ((K, ts), Value.Vector p) ∈ st.lock → ts ≤ sts →
      (∀ e ∈ st.lock, e.1.1 = K → e.1.2 ≤ sts → e.1.2 = ts) →
      MemoryStorage.get st sts K = some (.error (.IsLocked ts p)))
    ∧ (∀ (st : KvTable) (sts : Nat) (K : RawKey),
      (∀ e ∈ st.lock, ¬ (e.1.1 = K ∧ e.1.2 ≤ sts)) →
      (∀ e ∈ st.write, ¬ (e.1.1 = K ∧ e.1.2 ≤ sts)) →
      MemoryStorage.get st sts K = some (.ok none))
    ∧ (∀ (st : KvTable) (sts : Nat) (K : RawKey) (c s : Nat) (d : List Nat),
      colNodup st.write → colNodup st.data →
      (∀ e ∈ st.lock, ¬ (e.1.1 = K ∧ e.1.2 ≤ sts)) →
      ((K, c), Value.Timestamp s) ∈ st.write → c ≤ sts →
      (∀ e ∈ st.write, e.1.1 = K → e.1.2 ≤ sts → e.1.2 ≤ c) →
      ((K, s), Value.Vector d) ∈ st.data →
      MemoryStorage.get st sts K = some (.ok (some d))) := by
  refine ⟨?_, ?_, ?_⟩
  · intro st sts K ts p hnd hmem hts huniq
    have hrange : ¬ (TsBound.incl sts).hi < (TsBound.unb).lo := by
      simp [TsBound.hi, TsBound.lo]
    have hread : st.read K .Lock .unb (.incl sts) = some (some (ts, .Vector p)) := by
      refine read_some_some_of hrange ?_ ?_ (Nat.zero_le _) hts ?_
      · exact hnd
      · exact hmem
      · intro e he hk _ hh
        exact (huniq e he hk hh).le
    simp only [MemoryStorage.get, hread, Value.as_bytes]
  · intro st sts K hlock hwrite
    have hrange : ¬ (TsBound.incl sts).hi < (TsBound.unb).lo := by
      simp [TsBound.hi, TsBound.lo]
    have hread1 : st.read K .Lock .unb (.incl sts) = some none := by
      rw [read_some_none_iff hrange]
      intro e he ⟨hk, _, hh⟩
      exact hlock e he ⟨hk, hh⟩
    have hread2 : st.read K .Write .unb (.incl sts) = some none := by
      rw [read_some_none_iff hrange]
      intro e he ⟨hk, _, hh⟩
      exact hwrite e he ⟨hk, hh⟩
    simp only [MemoryStorage.get, hread1, hread2]
  · intro st sts K c s d hndw hndd hlock hwmem hc hcmax hdmem
    have hrange : ¬ (TsBound.incl sts).hi < (TsBound.unb).lo := by
      simp [TsBound.hi, TsBound.lo]
    have hread1 : st.read K .Lock .unb (.incl sts) = some none := by
      rw [read_some_none_iff hrange]
      intro e he ⟨hk, _, hh⟩
      exact hlock e he ⟨hk, hh⟩
    have hread2 : st.read K .Write .unb (.incl sts) = some (some (c, .Timestamp s)) := by
      refine read_some_some_of hrange ?_ ?_ (Nat.zero_le _) hc ?_
      · exact hndw
      · exact hwmem
      · intro e he hk _ hh
        exact hcmax e he hk hh
    have hrange3 : ¬ (TsBound.incl s).hi < (TsBound.incl s).lo := by
      simp [TsBound.hi, TsBound.lo]
    have hread3 : st.read K .Data (.incl s) (.incl s) = some (some (s, .Vector d)) := by
      refine read_some_some_of hrange3 ?_ ?_ le_rfl le_rfl ?_
      · exact hndd
      · exact hdmem
      · intro e _ _ _ hh
        exact hh
    simp only [MemoryStorage.get, hread1, hread2, Value.as_ts, hread3, Value.as_bytes]

/-- Witness for C1: each branch evaluated at a concrete store. -/
theorem get_matches_spec_witness :
    ((([49], 3), Value.Vector [42]) ∈ (KvTable.mk [] [] [(([49], 3), Value.Vector [42])]).lock
      ∧ MemoryStorage.get (KvTable.mk [] [] [(([49], 3), Value.Vector [42])]) 5 [49] =
        some (.error (.IsLocked 3 [42])))
    ∧ MemoryStorage.get KvTable.empty 5 [49] = some (.ok none)
    ∧ ((([49], 2), Value.Timestamp 1) ∈
        (KvTable.mk [(([49], 2), Value.Timestamp 1)] [(([49], 1), Value.Vector [10])] []).write
      ∧ MemoryStorage.get
          (KvTable.mk [(([49], 2), Value.Timestamp 1)] [(([49], 1), Value.Vector [10])] [])
          3 [49] = some (.ok (some [10]))) :=
  ⟨⟨by decide,
    get_matches_spec.1 _ 5 [49] 3 [42] (by decide) (by decide) (by decide) (by decide)⟩,
   get_matches_spec.2.1 KvTable.empty 5 [49] (by decide) (by decide),
   ⟨by decide,
    get_matches_spec.2.2 _ 3 [49] 2 1 [10] (by decide) (by decide) (by decide) (by decide)
      (by decide) (by decide) (by decide)⟩⟩

/-! ### Claim C2: the Prewrite handler -/

/-- C2.  For every `u64`-valued server store state and Prewrite request
`(start_ts, K, value, primary_key)`: the handler fails `WriteConflict{c}` iff some
Write entry for `K` has commit timestamp `≥ start_ts` (`c` being the greatest
such); otherwise it fails `IsLocked{t}` iff some Lock entry for `K` exists at any
timestamp (`t` being the greatest); otherwise it succeeds after inserting Data at
`(K, start_ts) := value` and Lock at `(K, start_ts) := primary_key`.  On either
failure the three column maps are unchanged (the returned state equals the input
state). -/
theorem prewrite_matches_spec :
    (∀ (st : KvTable) (sts : Nat) (K : RawKey) (val pk : List Nat) (c : Nat) (v : Value),
      tsBounded st → sts ≤ U64MAX → ((K, c), v) ∈ st.write → sts ≤ c →
      (∀ e ∈ st.write, e.1.1 = K → sts ≤ e.1.2 → e.1.2 ≤ c) →
      MemoryStorage.prewrite st sts K val pk = some (.error (.WriteConflict c), st))
    ∧ (∀ (st : KvTable) (sts : Nat) (K : RawKey) (val pk : List Nat) (t : Nat) (v : Value),
      tsBounded st → sts ≤ U64MAX →
      (∀ e ∈ st.write, ¬ (e.1.1 = K ∧ sts ≤ e.1.2)) →
      ((K, t), v) ∈ st.lock → (∀ e ∈ st.lock, e.1.1 = K → e.1.2 ≤ t) →
      MemoryStorage.prewrite st sts K val pk = some (.error (.IsLocked t), st))
    ∧ (∀ (st : KvTable) (sts : Nat) (K : RawKey) (val pk : List Nat),
      tsBounded st → sts ≤ U64MAX →
      (∀ e ∈ st.write, ¬ (e.1.1 = K ∧ sts ≤ e.1.2)) →
      (∀ e ∈ st.lock, e.1.1 ≠ K) →
      MemoryStorage.prewrite st sts K val pk =
        some (.ok (), { st with data := colInsert (K, sts) (.Vector val) st.data,
                                lock := colInsert (K, sts) (.Vector pk) st.lock }))
    ∧ (∀ (st st' : KvTable) (sts : Nat) (K : RawKey) (val pk : List Nat) (c : Nat),
      MemoryStorage.prewrite st sts K val pk = some (.error (.WriteConflict c), st') →
      (∃ v, ((K, c), v) ∈ st.write) ∧ sts ≤ c ∧ st' = st)
    ∧ (∀ (st st' : KvTable) (sts : Nat) (K : RawKey) (val pk : List Nat) (t : Nat),
      MemoryStorage.prewrite st sts K val pk = some (.error (.IsLocked t), st') →
      (∃ v, ((K, t), v) ∈ st.lock) ∧ st' = st) := by
  have hrange2 : ¬ (TsBound.unb).hi < (TsBound.unb).lo := by
    simp [TsBound.hi, TsBound.lo]
  refine ⟨?_, ?_, ?_, ?_, ?_⟩
  · intro st sts K val pk c v hb hsts hmem hc hcmax
    have hrange1 : ¬ (TsBound.unb).hi < (TsBound.incl sts).lo := by
      simpa [TsBound.hi, TsBound.lo] using hsts
    have hcb : c ≤ U64MAX := hb.1 _ hmem
    have hread : ∃ v', st.read K .Write (.incl sts) .unb = some (some (c, v')) :=
      read_max_ts hrange1 hmem hc hcb (fun e he hk hl _ => hcmax e he hk hl)
    rcases hread with ⟨v', hread⟩
    simp only [MemoryStorage.prewrite, hread]
  · intro st sts K val pk t v hb hsts hnoc hmem hmax
    have hrange1 : ¬ (TsBound.unb).hi < (TsBound.incl sts).lo := by
      simpa [TsBound.hi, TsBound.lo] using hsts
    have hread1 : st.read K .Write (.incl sts) .unb = some none := by
      rw [read_some_none_iff hrange1]
      intro e he hcon
      exact hnoc e he ⟨hcon.1, hcon.2.1⟩
    have htb : t ≤ U64MAX := hb.2.2 _ hmem
    have hread2 : ∃ v', st.read K .Lock .unb .unb = some (some (t, v')) :=
      read_max_ts hrange2 hmem (Nat.zero_le _) htb (fun e he hk _ _ => hmax e he hk)
    rcases hread2 with ⟨v', hread2⟩
    simp only [MemoryStorage.prewrite, hread1, hread2]
  · intro st sts K val pk hb hsts hnoc hnol
    have hrange1 : ¬ (TsBound.unb).hi < (TsBound.incl sts).lo := by
      simpa [TsBound.hi, TsBound.lo] using hsts
    have hread1 : st.read K .Write (.incl sts) .unb = some none := by
      rw [read_some_none_iff hrange1]
      intro e he hcon
      exact hnoc e he ⟨hcon.1, hcon.2.1⟩
    have hread2 : st.read K .Lock .unb .unb = some none := by
      rw [read_some_none_iff hrange2]
      intro e he hcon
      exact hnol e he hcon.1
    simp only [MemoryStorage.prewrite, hread1, hread2, KvTable.writeCell]
  · intro st st' sts K val pk c hpw
    cases hr1 : st.read K .Write (.incl sts) .unb with
    | none => rw [MemoryStorage.prewrite, hr1] at hpw; cases hpw
    | some o1 =>
      cases o1 with
      | some p =>
        rcases p with ⟨ts1, v1⟩
        rw [MemoryStorage.prewrite, hr1] at hpw
        have h1 : PrewriteError.WriteConflict ts1 = .WriteConflict c ∧ st = st' := by
          have := Option.some.inj hpw
          exact ⟨Except.error.inj (congrArg Prod.fst this), congrArg Prod.snd this⟩
        have hts : ts1 = c := by cases h1.1; rfl
        subst hts
        rcases read_some_some_inv hr1 with ⟨hmem, hlo, _, _⟩
        exact ⟨⟨v1, hmem⟩, hlo, h1.2.symm⟩
      | none =>
        cases hr2 : st.read K .Lock .unb .unb with
        | none => rw [MemoryStorage.prewrite, hr1, hr2] at hpw; cases hpw
        | some o2 =>
          cases o2 with
          | some q =>
            rcases q with ⟨ts2, v2⟩
            rw [MemoryStorage.prewrite, hr1, hr2] at hpw
            exact absurd (congrArg Prod.fst (Option.some.inj hpw)) (by simp)
          | none =>
            rw [MemoryStorage.prewrite, hr1, hr2] at hpw
            exact absurd (congrArg Prod.fst (Option.some.inj hpw)) (by simp)
  · intro st st' sts K val pk t hpw
    cases hr1 : st.read K .Write (.incl sts) .unb with
    | none => rw [MemoryStorage.prewrite, hr1] at hpw; cases hpw
    | some o1 =>
      cases o1 with
      | some p =>
        rcases p with ⟨ts1, v1⟩
        rw [MemoryStorage.prewrite, hr1] at hpw
        exact absurd (congrArg Prod.fst (Option.some.inj hpw)) (by simp)
      | none =>
        cases hr2 : st.read K .Lock .unb .unb with
        | none => rw [MemoryStorage.prewrite, hr1, hr2] at hpw; cases hpw
        | some o2 =>
          cases o2 with
          | some q =>
            rcases q with ⟨ts2, v2⟩
            rw [MemoryStorage.prewrite, hr1, hr2] at hpw
            have h1 : PrewriteError.IsLocked ts2 = .IsLocked t ∧ st = st' := by
              have := Option.some.inj hpw
              exact ⟨Except.error.inj (congrArg Prod.fst this), congrArg Prod.snd this⟩
            have hts : ts2 = t := by cases h1.1; rfl
            subst hts
            rcases read_some_some_inv hr2 with ⟨hmem, _, _, _⟩
            exact ⟨⟨v2, hmem⟩, h1.2.symm⟩
          | none =>
            rw [MemoryStorage.prewrite, hr1, hr2] at hpw
            exact absurd (congrArg Prod.fst (Option.some.inj hpw)) (by simp)

/-- Witness for C2: the conflict, locked, and success branches evaluated at
concrete stores. -/
theorem prewrite_matches_spec_witness :
    ((([49], 7), Value.Timestamp 4) ∈
        (KvTable.mk [(([49], 7), Value.Timestamp 4)] [] []).write
      ∧ MemoryStorage.prewrite (KvTable.mk [(([49], 7), Value.Timestamp 4)] [] [])
          5 [49] [1] [49] =
        some (.error (.WriteConflict 7), KvTable.mk [(([49], 7), Value.Timestamp 4)] [] []))
    ∧ ((([49], 2), Value.Vector [49]) ∈
        (KvTable.mk [] [] [(([49], 2), Value.Vector [49])]).lock
      ∧ MemoryStorage.prewrite (KvTable.mk [] [] [(([49], 2), Value.Vector [49])])
          5 [49] [1] [49] =
        some (.error (.IsLocked 2), KvTable.mk [] [] [(([49], 2), Value.Vector [49])]))
    ∧ MemoryStorage.prewrite KvTable.empty 5 [49] [1] [49] =
        some (.ok (), { KvTable.empty with
          data := colInsert ([49], 5) (.Vector [1]) KvTable.empty.data,
          lock := colInsert ([49], 5) (.Vector [49]) KvTable.empty.lock }) :=
  ⟨⟨by decide,
    prewrite_matches_spec.1 _ 5 [49] [1] [49] 7 (.Timestamp 4) (by decide) (by decide)
      (by decide) (by decide) (by decide)⟩,
   ⟨by decide,
    prewrite_matches_spec.2.1 _ 5 [49] [1] [49] 2 (.Vector [49]) (by decide) (by decide)
      (by decide) (by decide) (by decide)⟩,
   prewrite_matches_spec.2.2.1 KvTable.empty 5 [49] [1] [49] (by decide) (by decide)
     (by decide) (by decide)⟩

/-! ### Claim C5: Commit succeeds unconditionally and is idempotent -/

theorem filter_self_idem {α : Type} (p : α → Bool) (l : List α) :
    (l.filter p).filter p = l.filter p := by
  induction l with
  | nil => rfl
  | cons a l ih =>
    cases h : p a
    · simp [List.filter_cons, h, ih]
    · simp [List.filter_cons, h, ih]

theorem colInsert_idem (k : RawKey × Nat) (v : Value) (m : Col) :
    colInsert k v (colInsert k v m) = colInsert k v m := by
  simp [colInsert, List.filter_cons, filter_self_idem]

theorem colErase_idem (k : RawKey × Nat) (m : Col) :
    colErase k (colErase k m) = colErase k m :=
  filter_self_idem _ m

/-- C5.  For every server store state and Commit request
`(is_primary, K, start_ts, commit_ts)`, the Commit handler returns success
unconditionally, and applying the same request twice produces exactly the same
store as applying it once: the repeated Write-row insert stores the identical
`VTs(start_ts)` value, and the Lock erase at `(K, start_ts)` is a no-op once the
entry is absent. -/
theorem commit_matches_spec (st : KvTable) (ip : Bool) (K : RawKey) (sts cts : Nat) :
    (MemoryStorage.commit st ip K sts cts).1 = .ok ()
    ∧ MemoryStorage.commit (MemoryStorage.commit st ip K sts cts).2 ip K sts cts
        = MemoryStorage.commit st ip K sts cts := by
  constructor
  · rfl
  · simp only [MemoryStorage.commit, KvTable.writeCell, KvTable.eraseCell]
    rw [colInsert_idem, colErase_idem]

/-! ### Claim C10: the commit/rollback error enums are uninhabited -/

/-- C10.  `CommitError` and `RollbackError` have no variants, so the server's
commit and rollback handlers can only return `Ok(())`; every response of type
`Result<(), CommitError>` or `Result<(), RollbackError>` *is* `Ok(())`, hence the
client's `unwrap()` of such a response in `get()`-recovery can never panic, and
the `Ok(Err(_))` arm of `commit()`'s commit phase is unreachable. -/
theorem error_enums_uninhabited :
    (CommitError → False) ∧ (RollbackError → False)
    ∧ (∀ (st : KvTable) (ip : Bool) (K : RawKey) (sts cts : Nat),
        (MemoryStorage.commit st ip K sts cts).1 = .ok ())
    ∧ (∀ (st : KvTable) (K : RawKey) (sts : Nat),
        (MemoryStorage.rollback st K sts).1 = .ok ())
    ∧ (∀ r : Except CommitError Unit, r = .ok ())
    ∧ (∀ r : Except RollbackError Unit, r = .ok ()) := by
  refine ⟨?_, ?_, ?_, ?_, ?_, ?_⟩
  · exact fun e => nomatch e
  · exact fun e => nomatch e
  · exact fun _ _ _ _ _ => rfl
  · exact fun _ _ _ => rfl
  · intro r
    match r with
    | .error e => exact nomatch e
    | .ok () => rfl
  · intro r
    match r with
    | .error e => exact nomatch e
    | .ok () => rfl

/-! ### Step-effect lemmas for the request machine -/

theorem read_some_not_lt {st : KvTable} {key : RawKey} {c : Column} {lb ub : TsBound}
    {o : Option (Nat × Value)} (h : st.read key c lb ub = some o) : ¬ ub.hi < lb.lo := by
  intro hlt
  rw [KvTable.read, if_pos hlt] at h
  cases h

theorem stepReq_get (st : KvTable) (sts : Nat) (k : RawKey) :
    stepReq st (.get sts k) = st := rfl

theorem stepReq_check (st : KvTable) (k : RawKey) (lts : Nat) :
    stepReq st (.check k lts) = st := rfl

theorem stepReq_commit (st : KvTable) (ip : Bool) (k : RawKey) (sts cts : Nat) :
    stepReq st (.commit ip k sts cts) =
      { st with write := colInsert (k, cts) (.Timestamp sts) st.write,
                lock := colErase (k, sts) st.lock } := rfl

theorem stepReq_rollback (st : KvTable) (k : RawKey) (sts : Nat) :
    stepReq st (.rollback k sts) = { st with lock := colErase (k, sts) st.lock } := rfl

theorem prewrite_step_cases (st : KvTable) (sts : Nat) (k : RawKey) (v p : List Nat) :
    stepReq st (.prewrite sts k v p) = st
    ∨ (sts ≤ U64MAX
       ∧ (∀ e ∈ st.lock, ¬ (e.1.1 = k ∧ e.1.2 ≤ U64MAX))
       ∧ stepReq st (.prewrite sts k v p)
          = { st with data := colInsert (k, sts) (.Vector v) st.data,
                      lock := colInsert (k, sts) (.Vector p) st.lock }) := by
  cases hr1 : st.read k .Write (.incl sts) .unb with
  | none =>
    left
    simp only [stepReq, MemoryStorage.prewrite, hr1]
  | some o1 =>
    have hsts : sts ≤ U64MAX := le_of_not_lt (read_some_not_lt hr1)
    cases o1 with
    | some q =>
      left
      rcases q with ⟨ts1, v1⟩
      simp only [stepReq, MemoryStorage.prewrite, hr1]
    | none =>
      cases hr2 : st.read k .Lock .unb .unb with
      | none =>
        exact absurd hr2 (read_ne_none (by simp [TsBound.hi, TsBound.lo]))
      | some o2 =>
        cases o2 with
        | some q =>
          left
          rcases q with ⟨ts2, v2⟩
          simp only [stepReq, MemoryStorage.prewrite, hr1, hr2]
        | none =>
          right
          refine ⟨hsts, ?_, ?_⟩
          · have := (read_some_none_iff (by simp [TsBound.hi, TsBound.lo])).mp hr2
            intro e he ⟨hk, hb⟩
            exact this e he ⟨hk, Nat.zero_le _, hb⟩
          · simp only [stepReq, MemoryStorage.prewrite, hr1, hr2, KvTable.writeCell]

/-! ### Claim C4: at most one Lock entry per raw key, from the empty store -/

/-- All Lock timestamps fit in a `u64` and each raw key has at most one Lock
entry. -/
def LockInv (st : KvTable) : Prop :=
  (∀ e ∈ st.lock, e.1.2 ≤ U64MAX)
  ∧ ∀ (K : RawKey) (t₁ t₂ : Nat),
      colHas st.lock (K, t₁) = true → colHas st.lock (K, t₂) = true → t₁ = t₂

theorem lockInv_step {st : KvTable} (hinv : LockInv st) (r : Req) :
    LockInv (stepReq st r) := by
  rcases hinv with ⟨hb, huniq⟩
  cases r with
  | get sts k => exact ⟨hb, huniq⟩
  | check k lts => exact ⟨hb, huniq⟩
  | commit ip k sts cts =>
    rw [stepReq_commit]
    constructor
    · intro e he
      exact hb e (mem_colErase.mp he).1
    · intro K t₁ t₂ h₁ h₂
      exact huniq K t₁ t₂ (colHas_colErase.mp h₁).1 (colHas_colErase.mp h₂).1
  | rollback k sts =>
    rw [stepReq_rollback]
    constructor
    · intro e he
      exact hb e (mem_colErase.mp he).1
    · intro K t₁ t₂ h₁ h₂
      exact huniq K t₁ t₂ (colHas_colErase.mp h₁).1 (colHas_colErase.mp h₂).1
  | prewrite sts k v p =>
    rcases prewrite_step_cases st sts k v p with heq | ⟨hsts, hnol, heq⟩
    · rw [heq]; exact ⟨hb, huniq⟩
    · rw [heq]
      constructor
      · intro e he
        rcases mem_colInsert.mp he with rfl | ⟨hmem, _⟩
        · exact hsts
        · exact hb e hmem
      · intro K t₁ t₂ h₁ h₂
        have hold : ∀ t, colHas st.lock (K, t) = true → ¬ K = k := by
          intro t ht hKk
          rcases colHas_iff.mp ht with ⟨w, hw⟩
          have hbt : t ≤ U64MAX := hb _ hw
          exact hnol ((K, t), w) hw ⟨hKk, hbt⟩
        rcases colHas_colInsert.mp h₁ with h₁ | ⟨h₁, hne₁⟩
        · rcases colHas_colInsert.mp h₂ with h₂ | ⟨h₂, hne₂⟩
          · have e1 : t₁ = sts := congrArg Prod.snd h₁
            have e2 : t₂ = sts := congrArg Prod.snd h₂
            rw [e1, e2]
          · have hKk : K = k := congrArg Prod.fst h₁
            exact absurd hKk (hold t₂ h₂)
        · rcases colHas_colInsert.mp h₂ with h₂ | ⟨h₂, hne₂⟩
          · have hKk : K = k := congrArg Prod.fst h₂
            exact absurd hKk (hold t₁ h₁)
          · exact huniq K t₁ t₂ h₁ h₂

theorem lockInv_execReqs (reqs : List Req) {st : KvTable} (hinv : LockInv st) :
    LockInv (execReqs st reqs) := by
  induction reqs generalizing st with
  | nil => exact hinv
  | cons r rs ih => exact ih (lockInv_step hinv r)

/-- C4.  In every state reachable from the empty store by any sequence of
requests with arbitrary arguments, each raw key has at most one Lock entry:
Prewrite inserts a Lock only after checking that no Lock row for the key exists
over the full timestamp range, and Commit/Rollback only erase Lock rows. -/
theorem lock_at_most_one (reqs : List Req) (K : RawKey) (t₁ t₂ : Nat)
    (h₁ : colHas (execReqs KvTable.empty reqs).lock (K, t₁) = true)
    (h₂ : colHas (execReqs KvTable.empty reqs).lock (K, t₂) = true) : t₁ = t₂ := by
  have hinv : LockInv (execReqs KvTable.empty reqs) :=
    lockInv_execReqs reqs ⟨fun e he => absurd he (by simp [KvTable.empty]),
      fun K t₁ t₂ h _ => by simp [KvTable.empty, colHas] at h⟩
  exact hinv.2 K t₁ t₂ h₁ h₂

/-- Witness for C4: after one Prewrite, the key holds a Lock at its `start_ts`. -/
theorem lock_at_most_one_witness :
    colHas (execReqs KvTable.empty [.prewrite 5 [49] [7] [49]]).lock ([49], 5) = true
    ∧ 5 = 5 :=
  ⟨by decide,
   lock_at_most_one [.prewrite 5 [49] [7] [49]] [49] 5 5 (by decide) (by decide)⟩

/-! ### Claim C3: Write entries point at existing Data entries -/

/-- C3 counterexample.  The Commit handler inserts its Write row unconditionally,
so a bare Commit request applied to the empty store (an "arbitrary arguments"
sequence) creates a Write entry `(K, 10) → VTs(5)` with no Data entry at
`(K, 5)`: invariant 2 does not hold over sequences of requests with arbitrary
arguments. -/
theorem write_points_to_data_counterexample :
    ((([49], 10), Value.Timestamp 5) ∈
        (execReqs KvTable.empty [.commit true [49] 5 10]).write)
    ∧ colHas (execReqs KvTable.empty [.commit true [49] 5 10]).data ([49], 5) = false := by
  decide

/-- Every Write entry `(K, c) → VTs(s)` has a Data entry at `(K, s)`. -/
def WritePointed (st : KvTable) : Prop :=
  ∀ (K : RawKey) (c s : Nat),
    ((K, c), Value.Timestamp s) ∈ st.write → colHas st.data (K, s) = true

theorem colHas_mono_colInsert {m : Col} {k j : RawKey × Nat} {v : Value}
    (h : colHas m j = true) : colHas (colInsert k v m) j = true := by
  by_cases hjk : j = k
  · exact colHas_colInsert.mpr (.inl hjk)
  · exact colHas_colInsert.mpr (.inr ⟨h, hjk⟩)

theorem writePointed_step {st : KvTable} {r : Req} (hinv : WritePointed st)
    (hg : commitGuard st r = true) : WritePointed (stepReq st r) := by
  cases r with
  | get sts k => exact hinv
  | check k lts => exact hinv
  | rollback k sts =>
    rw [stepReq_rollback]
    intro K c s hw
    exact hinv K c s hw
  | commit ip k sts cts =>
    rw [stepReq_commit]
    intro K c s hw
    rcases mem_colInsert.mp hw with heq | ⟨hmem, _⟩
    · have hK : K = k := congrArg (fun q => q.1.1) heq
      have hs : s = sts := Value.Timestamp.inj (congrArg Prod.snd heq)
      rw [hK, hs]
      exact hg
    · exact hinv K c s hmem
  | prewrite sts k v p =>
    rcases prewrite_step_cases st sts k v p with heq | ⟨_, _, heq⟩
    · rw [heq]; exact hinv
    · rw [heq]
      intro K c s hw
      exact colHas_mono_colInsert (hinv K c s hw)

theorem writePointed_execGuarded (reqs : List Req) :
    ∀ {st₀ st : KvTable}, WritePointed st₀ → execGuarded st₀ reqs = some st →
      WritePointed st := by
  induction reqs with
  | nil =>
    intro st₀ st hinv hex
    cases Option.some.inj hex
    exact hinv
  | cons r rs ih =>
    intro st₀ st hinv hex
    rw [execGuarded] at hex
    by_cases hg : commitGuard st₀ r = true
    · rw [if_pos hg] at hex
      exact ih (writePointed_step hinv hg) hex
    · rw [if_neg hg] at hex
      cases hex

/-- C3 (amended).  In every state reachable from the empty store by a sequence
of requests in which each Commit is applied only when a Data entry exists at its
`(key, start_ts)` — the discipline the client protocol guarantees, since Commit
is only issued after a successful Prewrite of the same key and transaction and
Data rows are never erased — every Write entry `(K, c) → VTs(s)` has a Data
entry at `(K, s)`. -/
theorem write_points_to_data (reqs : List Req) (st : KvTable)
    (hex : execGuarded KvTable.empty reqs = some st) (K : RawKey) (c s : Nat)
    (hw : ((K, c), Value.Timestamp s) ∈ st.write) : colHas st.data (K, s) = true := by
  have h0 : WritePointed KvTable.empty := by
    intro K c s hmem
    exact absurd hmem (by simp [KvTable.empty])
  exact writePointed_execGuarded reqs h0 hex K c s hw

/-- Witness for C3 (amended): Prewrite then Commit of the same key and
`start_ts` passes the guard and yields a pointed Write entry. -/
theorem write_points_to_data_witness :
    execGuarded KvTable.empty [.prewrite 5 [49] [7] [49], .commit true [49] 5 10]
      = some (execReqs KvTable.empty [.prewrite 5 [49] [7] [49], .commit true [49] 5 10])
    ∧ colHas (execReqs KvTable.empty
        [.prewrite 5 [49] [7] [49], .commit true [49] 5 10]).data ([49], 5) = true :=
  ⟨by decide,
   write_points_to_data [.prewrite 5 [49] [7] [49], .commit true [49] 5 10] _
     (by decide) [49] 10 5 (by decide)⟩

/-! ### Claim C6: the Check handler and `find_write` -/

/-- `true` iff the cell value is a `Timestamp` (so `as_ts` would not panic). -/
def Value.isTs : Value → Bool
  | .Timestamp _ => true
  | .Vector _ => false

theorem mem_insertByTs {e f : Nat × Value} {l : List (Nat × Value)} :
    f ∈ insertByTs e l ↔ f = e ∨ f ∈ l := by
  induction l with
  | nil => simp [insertByTs]
  | cons g gs ih =>
    rw [insertByTs]
    by_cases h : e.1 ≤ g.1
    · rw [if_pos h]
      simp
    · rw [if_neg h]
      simp only [List.mem_cons, ih]
      tauto

theorem mem_sortByTs {f : Nat × Value} {l : List (Nat × Value)} :
    f ∈ sortByTs l ↔ f ∈ l := by
  induction l with
  | nil => simp [sortByTs]
  | cons e es ih =>
    have hstep : sortByTs (e :: es) = insertByTs e (sortByTs es) := rfl
    rw [hstep, mem_insertByTs, ih, List.mem_cons]

theorem scanWrite_some_mem {sts c : Nat} {l : List (Nat × Value)}
    (h : scanWrite sts l = some (some c)) : (c, Value.Timestamp sts) ∈ l := by
  induction l with
  | nil => cases h
  | cons f es ih =>
    rcases f with ⟨ts, v⟩
    cases v with
    | Vector bs => rw [scanWrite] at h; cases h
    | Timestamp t =>
      rw [scanWrite] at h
      by_cases ht : t = sts
      · rw [if_pos ht] at h
        have hc : ts = c := Option.some.inj (Option.some.inj h)
        rw [← hc, ← ht]
        exact List.mem_cons_self _ _
      · rw [if_neg ht] at h
        exact List.mem_cons_of_mem _ (ih h)

theorem scanWrite_eq_none_iff {sts : Nat} {l : List (Nat × Value)}
    (hts : ∀ f ∈ l, ∃ u, f.2 = Value.Timestamp u) :
    scanWrite sts l = some none ↔ ∀ f ∈ l, f.2 ≠ Value.Timestamp sts := by
  induction l with
  | nil => simp [scanWrite]
  | cons f es ih =>
    rcases f with ⟨ts, v⟩
    rcases hts _ (List.mem_cons_self _ _) with ⟨u, hu⟩
    cases hu
    rw [scanWrite]
    by_cases ht : u = sts
    · rw [if_pos ht]
      constructor
      · intro h; cases h
      · intro h
        exact absurd (by rw [ht] : (ts, Value.Timestamp u).2 = Value.Timestamp sts)
          (h _ (List.mem_cons_self _ _))
    · rw [if_neg ht]
      rw [ih (fun f hf => hts f (List.mem_cons_of_mem _ hf))]
      constructor
      · intro h f hf
        rcases List.mem_cons.mp hf with rfl | hf'
        · intro hcon
          exact ht (Value.Timestamp.inj hcon)
        · exact h f hf'
      · intro h f hf
        exact h f (List.mem_cons_of_mem _ hf)

theorem scanWrite_finds {sts : Nat} {l : List (Nat × Value)}
    (hts : ∀ f ∈ l, ∃ u, f.2 = Value.Timestamp u)
    (hex : ∃ f ∈ l, f.2 = Value.Timestamp sts) :
    ∃ c, scanWrite sts l = some (some c) := by
  induction l with
  | nil => rcases hex with ⟨f, hf, _⟩; cases hf
  | cons f es ih =>
    rcases f with ⟨ts, v⟩
    rcases hts _ (List.mem_cons_self _ _) with ⟨u, hu⟩
    cases hu
    rw [scanWrite]
    by_cases ht : u = sts
    · exact ⟨ts, by rw [if_pos ht]⟩
    · rw [if_neg ht]
      apply ih (fun f hf => hts f (List.mem_cons_of_mem _ hf))
      rcases hex with ⟨f, hf, hfts⟩
      rcases List.mem_cons.mp hf with rfl | hf'
      · exact absurd (Value.Timestamp.inj hfts) ht
      · exact ⟨f, hf', hfts⟩

theorem mem_writeScanList {st : KvTable} {K : RawKey} {q : Nat × Value} :
    q ∈ (st.write.filter
        (fun e => decide (e.1.1 = K ∧ e.1.2 ≤ U64MAX))).map (fun e => (e.1.2, e.2)) ↔
      ∃ e ∈ st.write, e.1.1 = K ∧ e.1.2 ≤ U64MAX ∧ (e.1.2, e.2) = q := by
  simp only [List.mem_map, List.mem_filter, decide_eq_true_eq]
  constructor
  · rintro ⟨e, ⟨he, hK, hb⟩, hq⟩
    exact ⟨e, he, hK, hb, hq⟩
  · rintro ⟨e, he, hK, hb, hq⟩
    exact ⟨e, ⟨he, hK, hb⟩, hq⟩

/-- C6.  For every store whose Write column is `u64`-timestamped and stores only
`VTs` payloads on the queried key (true of all reachable states): Check returns
`Some c` only for `c` the commit timestamp of a Write entry for `K` whose `VTs`
payload equals `lock_ts`; it returns `Some` of such a `c` whenever one exists;
and it returns `None` iff no Write entry for `K` points at `lock_ts`. -/
theorem check_matches_spec (st : KvTable) (K : RawKey) (lts : Nat)
    (hb : ∀ e ∈ st.write, e.1.2 ≤ U64MAX)
    (hvals : ∀ e ∈ st.write, e.1.1 = K → Value.isTs e.2 = true) :
    (∀ c, MemoryStorage.check st K lts = some (some c) →
       ((K, c), Value.Timestamp lts) ∈ st.write)
    ∧ ((∃ c, ((K, c), Value.Timestamp lts) ∈ st.write) →
       ∃ c, MemoryStorage.check st K lts = some (some c))
    ∧ (MemoryStorage.check st K lts = some none ↔
       ∀ c, ((K, c), Value.Timestamp lts) ∉ st.write) := by
  have hts : ∀ f ∈ sortByTs ((st.write.filter
      (fun e => decide (e.1.1 = K ∧ e.1.2 ≤ U64MAX))).map (fun e => (e.1.2, e.2))),
      ∃ u, f.2 = Value.Timestamp u := by
    intro f hf
    rcases mem_writeScanList.mp (mem_sortByTs.mp hf) with ⟨e, he, hK, _, hq⟩
    have hv := hvals e he hK
    cases hev : e.2 with
    | Timestamp u =>
      exact ⟨u, by rw [← congrArg Prod.snd hq, hev]⟩
    | Vector bs => rw [hev, Value.isTs] at hv; cases hv
  have hcheck : MemoryStorage.check st K lts = scanWrite lts
      (sortByTs ((st.write.filter
        (fun e => decide (e.1.1 = K ∧ e.1.2 ≤ U64MAX))).map (fun e => (e.1.2, e.2)))) := rfl
  refine ⟨?_, ?_, ?_⟩
  · intro c h
    rw [hcheck] at h
    have hmem := mem_writeScanList.mp (mem_sortByTs.mp (scanWrite_some_mem h))
    rcases hmem with ⟨e, he, hK, _, hq⟩
    rcases e with ⟨⟨k1, t1⟩, v1⟩
    have h1 : t1 = c := congrArg Prod.fst hq
    have h2 : v1 = Value.Timestamp lts := congrArg Prod.snd hq
    rw [← hK, ← h1, ← h2]
    exact he
  · rintro ⟨c, hmem⟩
    rw [hcheck]
    apply scanWrite_finds hts
    refine ⟨(c, Value.Timestamp lts), ?_, rfl⟩
    apply mem_sortByTs.mpr
    apply mem_writeScanList.mpr
    exact ⟨((K, c), Value.Timestamp lts), hmem, rfl, hb _ hmem, rfl⟩
  · rw [hcheck, scanWrite_eq_none_iff hts]
    constructor
    · intro h c hmem
      have hin : ((c : Nat), Value.Timestamp lts) ∈ sortByTs ((st.write.filter
          (fun e => decide (e.1.1 = K ∧ e.1.2 ≤ U64MAX))).map (fun e => (e.1.2, e.2))) := by
        apply mem_sortByTs.mpr
        apply mem_writeScanList.mpr
        exact ⟨((K, c), Value.Timestamp lts), hmem, rfl, hb _ hmem, rfl⟩
      exact h _ hin rfl
    · intro h f hf hcon
      rcases mem_writeScanList.mp (mem_sortByTs.mp hf) with ⟨e, he, hK, _, hq⟩
      rcases e with ⟨⟨k1, t1⟩, v1⟩
      have h2 : v1 = Value.Timestamp lts := by
        rw [← hcon]
        exact congrArg Prod.snd hq
      have hk1 : k1 = K := hK
      rw [hk1, h2] at he
      exact h t1 he

/-- Witness for C6: on a store with one committed version, Check finds the
commit timestamp of the transaction that started at `lock_ts = 5`. -/
theorem check_matches_spec_witness :
    (∀ e ∈ (KvTable.mk [(([49], 10), Value.Timestamp 5)] [] []).write, e.1.2 ≤ U64MAX)
    ∧ (∃ c, MemoryStorage.check (KvTable.mk [(([49], 10), Value.Timestamp 5)] [] [])
        [49] 5 = some (some c)) :=
  ⟨by decide,
   (check_matches_spec (KvTable.mk [(([49], 10), Value.Timestamp 5)] [] []) [49] 5
     (by decide) (by decide)).2.1 ⟨10, by decide⟩⟩

/-! ### Claim C7: the commit phase of `Client::commit()` -/

theorem prewriteKeys_all_ok {resp : RawKey → RpcResult (Except PrewriteError Unit)}
    {ws : List (RawKey × List Nat)} (h : ∀ p ∈ ws, resp p.1 = .ok (.ok ())) :
    prewriteKeys resp ws = .ok true := by
  induction ws with
  | nil => rfl
  | cons p rest ih =>
    rcases p with ⟨k, v⟩
    rw [prewriteKeys, h (k, v) (List.mem_cons_self _ _)]
    exact ih (fun q hq => h q (List.mem_cons_of_mem _ hq))

/-- C7.  In the commit phase — which issues Commit for each buffered key in
sorted order, primary (the first key) first: (1) if the primary's Commit RPC
fails at the transport level before any Commit has succeeded, the phase returns
that error; (2) once any Commit has succeeded (the loop's `committed` flag is
set), the remainder of the phase always returns `Ok(true)`, whatever transport
errors or error responses follow; (3) end to end, a `commit()` whose Prewrites
all succeed and whose primary Commit transport-fails returns that error to the
caller. -/
theorem commit_phase_matches_spec :
    (∀ (resp : RawKey → RpcResult (Except CommitError Unit)) (pk : RawKey)
       (ks : List RawKey) (e : TErr),
      resp pk = .error e → commitKeys false resp (pk :: ks) = .err e)
    ∧ (∀ (resp : RawKey → RpcResult (Except CommitError Unit)) (ks : List RawKey),
      commitKeys true resp ks = .ok true)
    ∧ (∀ (start : Nat) (pkv : RawKey × List Nat) (rest : List (RawKey × List Nat))
         (cts : Nat) (prewriteResp : RawKey → RpcResult (Except PrewriteError Unit))
         (commitResp : RawKey → RpcResult (Except CommitError Unit)) (e : TErr),
      (∀ p ∈ pkv :: rest, prewriteResp p.1 = .ok (.ok ())) →
      commitResp pkv.1 = .error e →
      clientCommit (some start) (pkv :: rest) (.ok cts) prewriteResp commitResp
        = .err e) := by
  have h1 : ∀ (resp : RawKey → RpcResult (Except CommitError Unit)) (pk : RawKey)
      (ks : List RawKey) (e : TErr),
      resp pk = .error e → commitKeys false resp (pk :: ks) = .err e := by
    intro resp pk ks e h
    rw [commitKeys, h]
    rfl
  refine ⟨h1, ?_, ?_⟩
  · intro resp ks
    induction ks with
    | nil => rfl
    | cons k ks ih =>
      rw [commitKeys]
      cases h : resp k with
      | error e => rfl
      | ok r =>
        cases r with
        | error ce => rfl
        | ok u => cases u; exact ih
  · intro start pkv rest cts prewriteResp commitResp e hpw hc
    rw [clientCommit, if_neg (by simp), prewriteKeys_all_ok hpw]
    exact h1 commitResp pkv.1 (rest.map Prod.fst) e hc

/-- Witness for C7: a primary whose Commit transport-fails with error code 7
before any success makes the phase surface error 7. -/
theorem commit_phase_matches_spec_witness :
    ((fun _ : RawKey => (Except.error 7 : RpcResult (Except CommitError Unit))) [49]
        = .error 7)
    ∧ commitKeys false (fun _ => .error 7) [[49], [50]] = .err 7
    ∧ clientCommit (some 1) [([49], [7])] (.ok 2) (fun _ => .ok (.ok ()))
        (fun _ => .error 7) = .err 7 :=
  ⟨rfl, commit_phase_matches_spec.1 (fun _ => .error 7) [49] [[50]] 7 rfl,
   commit_phase_matches_spec.2.2 1 ([49], [7]) [] 2 (fun _ => .ok (.ok ()))
     (fun _ => .error 7) 7 (fun _ _ => rfl) rfl⟩

/-! ### Claim C8: `commit()` without `begin()` -/

/-- C8 counterexample.  `Client::commit()` tests `write_set.is_empty()` *before*
`start_ts.expect("no transaction")`: with no transaction begun and an empty
write buffer it returns `Ok(true)` instead of panicking, so the claim's
"regardless of the contents of the write buffer" fails on the empty buffer. -/
theorem client_commit_no_txn_counterexample :
    clientCommit none [] (.ok 0) (fun _ => .ok (.ok ())) (fun _ => .ok (.ok ()))
        = .ok true
    ∧ CommitOutcome.ok true ≠ .panicked := by
  constructor
  · rfl
  · decide

/-- C8 (amended).  For every client on which `begin()` has not been called
(`start_ts` unset), `commit()` with a *non-empty* write buffer panics
(`expect("no transaction")`), whatever the RPC outcomes; with an empty buffer it
returns `Ok(true)` before consulting `start_ts`. -/
theorem client_commit_no_txn_panics (ws : List (RawKey × List Nat)) (hws : ws ≠ [])
    (tsoResp : RpcResult Nat)
    (prewriteResp : RawKey → RpcResult (Except PrewriteError Unit))
    (commitResp : RawKey → RpcResult (Except CommitError Unit)) :
    clientCommit none ws tsoResp prewriteResp commitResp = .panicked := by
  rw [clientCommit, if_neg]
  simpa using hws

/-- Witness for C8 (amended): one buffered key and no transaction panics. -/
theorem client_commit_no_txn_panics_witness :
    ([(([49] : RawKey), [7])] : List (RawKey × List Nat)) ≠ []
    ∧ clientCommit none [([49], [7])] (.ok 0) (fun _ => .ok (.ok ()))
        (fun _ => .ok (.ok ())) = .panicked :=
  ⟨by decide,
   client_commit_no_txn_panics [([49], [7])] (by decide) (.ok 0) (fun _ => .ok (.ok ()))
     (fun _ => .ok (.ok ()))⟩

/-! ### Claim C9: `KvTable::read` against the semantic timestamp range -/

/-- Semantic membership of a timestamp in the range's lower bound, following the
spec's words ("the entry with the greatest `T` within `ts_range`"). -/
def TsBound.loMem : TsBound → Nat → Prop
  | .incl a, ts => a ≤ ts
  | .excl a, ts => a < ts
  | .unb, _ => True

/-- Semantic membership of a timestamp in the range's upper bound. -/
def TsBound.hiMem : TsBound → Nat → Prop
  | .incl a, ts => ts ≤ a
  | .excl a, ts => ts < a
  | .unb, _ => True

instance (b : TsBound) (ts : Nat) : Decidable (b.loMem ts) :=
  match b with
  | .incl a => inferInstanceAs (Decidable (a ≤ ts))
  | .excl a => inferInstanceAs (Decidable (a < ts))
  | .unb => inferInstanceAs (Decidable True)

instance (b : TsBound) (ts : Nat) : Decidable (b.hiMem ts) :=
  match b with
  | .incl a => inferInstanceAs (Decidable (ts ≤ a))
  | .excl a => inferInstanceAs (Decidable (ts < a))
  | .unb => inferInstanceAs (Decidable True)

/-- The read the specification describes (refinement comparison for
`KvTable::read`): the entry for `key` with the greatest timestamp lying within
the *semantic* `ts_range`, or none if no entry's timestamp lies within it. -/
def readSpec (st : KvTable) (key : RawKey) (c : Column) (lb ub : TsBound) :
    Option (Nat × Value) :=
  maxEntry ((st.colOf c).filter
    (fun e => decide (e.1.1 = key ∧ lb.loMem e.1.2 ∧ ub.hiMem e.1.2)))

/-- C9 counterexample.  With an upper bound of `Excluded 0`, the implementation
computes `0 - 1` in `u64`, which wraps to `u64::MAX` (and panics in a debug
build), turning the semantically empty range into the full range: on a store
with one Lock entry at timestamp 5, `read` returns that entry instead of none. -/
theorem read_matches_range_counterexample :
    KvTable.read (KvTable.mk [] [] [(([49], 5), Value.Vector [7])]) [49] .Lock
        .unb (.excl 0)
      ≠ some (readSpec (KvTable.mk [] [] [(([49], 5), Value.Vector [7])]) [49] .Lock
        .unb (.excl 0)) := by
  decide

theorem lo_le_iff {lb : TsBound} {ts : Nat}
    (hlb : ∀ t, lb = TsBound.excl t → t < U64MAX) : lb.lo ≤ ts ↔ lb.loMem ts := by
  cases lb with
  | incl a => exact Iff.rfl
  | unb => simp [TsBound.lo, TsBound.loMem]
  | excl a =>
    have ha : a < U64MAX := hlb a rfl
    have h64 : (2 : Nat) ^ 64 = 18446744073709551616 := by norm_num
    have hmod : (a + 1) % 2 ^ 64 = a + 1 := by
      apply Nat.mod_eq_of_lt
      unfold U64MAX at ha
      omega
    rw [TsBound.lo, hmod]
    exact Iff.rfl

theorem hi_le_iff {ub : TsBound} {ts : Nat}
    (hub : ∀ t, ub = TsBound.excl t → 1 ≤ t ∧ t ≤ U64MAX) (hts : ts ≤ U64MAX) :
    ts ≤ ub.hi ↔ ub.hiMem ts := by
  cases ub with
  | incl a => exact Iff.rfl
  | unb => simp [TsBound.hi, TsBound.hiMem, hts]
  | excl a =>
    obtain ⟨h1, h2⟩ := hub a rfl
    have h64 : (2 : Nat) ^ 64 = 18446744073709551616 := by norm_num
    have hmod : (a + U64MAX) % 2 ^ 64 = a - 1 := by
      unfold U64MAX at h2 ⊢
      rw [h64] at h2 ⊢
      omega
    rw [TsBound.hi, hmod]
    show ts ≤ a - 1 ↔ ts < a
    omega

/-- C9 (amended).  `read(K, column, ts_range)` returns the entry for `K` with the
greatest timestamp within `ts_range` (or none if no entry's timestamp lies in
it) for every combination of inclusive, exclusive, and unbounded bounds whose
values fit in `u64`, *provided* the lower bound is not `Excluded u64::MAX`, the
upper bound is not `Excluded 0`, and the derived numeric endpoints satisfy
`lo ≤ hi`; at those extremes the `u64` wrap-around (or the panic of
`BTreeMap::range` on an inverted range) breaks the correspondence. -/
theorem read_matches_range (st : KvTable) (key : RawKey) (c : Column) (lb ub : TsBound)
    (hb : tsBounded st)
    (hlb : ∀ t, lb = TsBound.excl t → t < U64MAX)
    (hub : ∀ t, ub = TsBound.excl t → 1 ≤ t ∧ t ≤ U64MAX)
    (hr : lb.lo ≤ ub.hi) :
    st.read key c lb ub = some (readSpec st key c lb ub) := by
  have hcb : ∀ e ∈ st.colOf c, e.1.2 ≤ U64MAX := by
    cases c with
    | Write => exact hb.1
    | Data => exact hb.2.1
    | Lock => exact hb.2.2
  rw [KvTable.read, if_neg (not_lt.mpr hr), readSpec]
  have hf : List.filter (fun e => decide (e.1.1 = key ∧ lb.lo ≤ e.1.2 ∧ e.1.2 ≤ ub.hi))
        (st.colOf c)
      = List.filter (fun e => decide (e.1.1 = key ∧ lb.loMem e.1.2 ∧ ub.hiMem e.1.2))
        (st.colOf c) := by
    apply List.filter_congr
    intro e he
    rw [decide_eq_decide]
    constructor
    · rintro ⟨hk, hl, hh⟩
      exact ⟨hk, (lo_le_iff hlb).mp hl, (hi_le_iff hub (hcb e he)).mp hh⟩
    · rintro ⟨hk, hl, hh⟩
      exact ⟨hk, (lo_le_iff hlb).mpr hl, (hi_le_iff hub (hcb e he)).mpr hh⟩
  rw [hf]

/-- Witness for C9 (amended): a well-behaved exclusive upper bound agrees with
the semantic range. -/
theorem read_matches_range_witness :
    tsBounded (KvTable.mk [] [] [(([49], 5), Value.Vector [7])])
    ∧ KvTable.read (KvTable.mk [] [] [(([49], 5), Value.Vector [7])]) [49] .Lock
        (.incl 1) (.excl 9)
      = some (readSpec (KvTable.mk [] [] [(([49], 5), Value.Vector [7])]) [49] .Lock
        (.incl 1) (.excl 9)) :=
  ⟨by decide,
   read_matches_range (KvTable.mk [] [] [(([49], 5), Value.Vector [7])]) [49] .Lock
     (.incl 1) (.excl 9) (by decide) (fun t h => nomatch h)
     (fun t h => by cases h; exact ⟨by decide, by decide⟩) (by decide)⟩

end Percolator
